import Mathlib

/-!
Verification development for the poker_vision repository.

The embedded code comes from:
  src/poker_vision/src/core/symbol_splitter.py   (SymbolSplitter)
  src/poker_vision/src/ui/labeling_mode.py       (save_text_label)
  src/poker_vision/src/core/template_manager.py  (TemplateManager)
  src/poker_vision/src/utils/image_utils.py      (binarize_image)

Modelling conventions:
  - Grayscale images are lists of rows of pixel intensities (List (List Nat)),
    binary masks are lists of rows of ink bits (List (List Bool)).  A mask
    pixel is true exactly when the corresponding 0/255 pixel is 255.
  - Library calls that are external to the repository (OpenCV contour
    extraction, OpenCV adaptive threshold neighbourhood means, the Otsu
    threshold value, datetime timestamps, cv2.imwrite success) are passed in
    as explicit parameters; everything the repository itself computes is
    translated literally.
  - Pixel coordinates produced by the segmenters are natural numbers; the
    Python expressions abs(a - b) on such values coincide with Nat.dist.
    The editor-side rectangle coordinates in labeling_mode.py can be
    negative before clamping, so those are modelled as integers.
  - The float comparison vertical_proj[x] <= height * 0.05 in
    split_by_projection is modelled as 20 * proj <= height; for integer
    counts and image heights below 2^50 the double-precision evaluation of
    height * 0.05 decides the comparison identically.
-/

namespace PokerVision

/-- Bounding box (x, y, w, h) in pixel coordinates, as the tuples produced by
SymbolSplitter (symbol_splitter.py).  All segmenter-produced coordinates are
non-negative. -/
structure Box where
  x : Nat
  y : Nat
  w : Nat
  h : Nat
deriving DecidableEq, Repr

/-- Grayscale image: list of rows of pixel intensities. -/
abbrev GrayImage := List (List Nat)

/-- Binary mask: list of rows of ink bits. -/
abbrev Mask := List (List Bool)

/-- Number of rows of a grayscale image (image.shape[0]). -/
def imgHeight (img : GrayImage) : Nat := img.length

/-- Number of columns of a grayscale image (image.shape[1]). -/
def imgWidth (img : GrayImage) : Nat := (img.headD []).length

/-- Number of rows of a mask. -/
def maskHeight (m : Mask) : Nat := m.length

/-- Number of columns of a mask. -/
def maskWidth (m : Mask) : Nat := (m.headD []).length

/-- SymbolSplitter.preprocess_image (symbol_splitter.py lines 20-38): grayscale
conversion (external cvtColor, so the input here is already single-channel)
followed by cv2.threshold(gray, 0, 255, THRESH_BINARY_INV + THRESH_OTSU).
The Otsu threshold value otsuT is computed by OpenCV and passed in; the
repository-visible semantics of THRESH_BINARY_INV is that a pixel becomes ink
(255, here true) exactly when its intensity is at most the threshold. -/
def preprocess_image (img : GrayImage) (otsuT : Nat) : Mask :=
  img.map (fun row => row.map (fun p => decide (p ≤ otsuT)))

/-- Vertical projection of one column (symbol_splitter.py line 54):
np.sum(image, axis=0) / 255 counts the ink pixels of column x. -/
def colProj (m : Mask) (x : Nat) : Nat :=
  (m.filter (fun row => row.getD x false)).length

/-- Gap test for a column (symbol_splitter.py lines 58, 66):
vertical_proj[x] <= height * 0.05, modelled as 20 * proj <= height. -/
def isGapCol (m : Mask) (x : Nat) : Bool :=
  decide (20 * colProj m x ≤ maskHeight m)

/-- Ink count of row y restricted to columns [a, b)
(horizontal_proj of image[:, a:b] in symbol_splitter.py lines 80-81). -/
def rowInk (m : Mask) (y a b : Nat) : Nat :=
  (((m.getD y []).drop a).take (b - a)).count true

/-- Candidate box for a closed horizontal span [start_x, end_x)
(symbol_splitter.py lines 79-92 and 103-115): vertical extent from the first
and last row with non-zero ink inside the span, then the minimum-size filter
w >= min_width and h >= min_height.  Returns none when nothing is appended. -/
def emitBox (m : Mask) (start_x end_x min_w min_h : Nat) : Option Box :=
  match (List.range (maskHeight m)).filter
      (fun y => decide (0 < rowInk m y start_x end_x)) with
  | [] => none
  | y0 :: rest =>
    let top_y := y0
    let bottom_y := (y0 :: rest).getLastD 0 + 1
    let w := end_x - start_x
    let h := bottom_y - top_y
    if min_w ≤ w ∧ min_h ≤ h then some ⟨start_x, top_y, w, h⟩ else none

/-- Loop state of the column scan in split_by_projection
(symbol_splitter.py lines 60-63). -/
structure ProjState where
  in_symbol : Bool
  start_x : Nat
  gap_count : Nat
  bboxes : List Box
deriving DecidableEq, Repr

/-- One iteration of the column scan (symbol_splitter.py lines 65-98).
The four arms correspond to the mutually exclusive if/elif branches on
(is_gap, in_symbol). -/
def projStep (m : Mask) (min_gap min_w min_h : Nat) (s : ProjState) (x : Nat) :
    ProjState :=
  match isGapCol m x, s.in_symbol with
  | false, false => { s with in_symbol := true, start_x := x, gap_count := 0 }
  | true, true =>
    let gc := s.gap_count + 1
    if min_gap ≤ gc then
      { in_symbol := false, start_x := s.start_x, gap_count := 0,
        bboxes := s.bboxes ++ (emitBox m s.start_x (x - gc + 1) min_w min_h).toList }
    else { s with gap_count := gc }
  | false, true => { s with gap_count := 0 }
  | true, false => s

/-- SymbolSplitter.split_by_projection (symbol_splitter.py lines 40-117):
scan the columns left to right, then close a still-open symbol at the right
edge of the image. -/
def split_by_projection (m : Mask) (min_gap min_w min_h : Nat) : List Box :=
  let final :=
    (List.range (maskWidth m)).foldl (projStep m min_gap min_w min_h)
      ⟨false, 0, 0, []⟩
  if final.in_symbol then
    final.bboxes ++ (emitBox m final.start_x (maskWidth m) min_w min_h).toList
  else final.bboxes

/-- Comparison key of the sorts in symbol_splitter.py (key=lambda b: b[0]). -/
def leX : Box → Box → Prop := fun p q => p.x ≤ q.x

instance : DecidableRel leX := fun p q => Nat.decLe p.x q.x

instance : IsTotal Box leX := ⟨fun a b => Nat.le_total a.x b.x⟩

instance : IsTrans Box leX := ⟨fun _ _ _ h1 h2 => Nat.le_trans h1 h2⟩

/-- SymbolSplitter.sort_boxes_left_to_right (symbol_splitter.py lines 214-223):
Python sorted(key=lambda b: b[0]) is a stable sort on the x coordinate, which
insertion sort with a non-strict comparison reproduces exactly. -/
def sort_boxes_left_to_right (l : List Box) : List Box :=
  List.insertionSort leX l

/-- Horizontal gap between a box and a group member
(symbol_splitter.py line 173): min(abs(x - (gx + gw)), abs(gx - (x + w))). -/
def xGapOf (b gb : Box) : Nat :=
  min (Nat.dist b.x (gb.x + gb.w)) (Nat.dist gb.x (b.x + b.w))

/-- Vertical overlap test (symbol_splitter.py line 176):
not (y + h < gy or gy + gh < y). -/
def yOverlapOf (b gb : Box) : Bool :=
  !(decide (b.y + b.h < gb.y) || decide (gb.y + gb.h < b.y))

/-- The should_merge loop of merge_close_boxes (symbol_splitter.py
lines 168-180): b joins the group when it is within max_gap of any member and
vertically overlaps that member. -/
def closeToGroup (g : Nat) (group : List Box) (b : Box) : Bool :=
  group.any (fun gb => decide (xGapOf b gb ≤ g) && yOverlapOf b gb)

/-- SymbolSplitter._merge_box_group (symbol_splitter.py lines 195-212):
union extent of a group of boxes. -/
def _merge_box_group (boxes : List Box) : Box :=
  match boxes with
  | [] => ⟨0, 0, 0, 0⟩
  | b :: bs =>
    let min_x := bs.foldl (fun acc c => min acc c.x) b.x
    let min_y := bs.foldl (fun acc c => min acc c.y) b.y
    let max_x := bs.foldl (fun acc c => max acc (c.x + c.w)) (b.x + b.w)
    let max_y := bs.foldl (fun acc c => max acc (c.y + c.h)) (b.y + b.h)
    ⟨min_x, min_y, max_x - min_x, max_y - min_y⟩

/-- The grouping loop of merge_close_boxes (symbol_splitter.py lines 161-193):
walk the x-sorted boxes keeping the open group and the flushed output; the
open group is never empty, so the trailing flush is unconditional. -/
def mergeGroups (g : Nat) (current merged : List Box) : List Box → List Box
  | [] => merged ++ [_merge_box_group current]
  | b :: rest =>
    if closeToGroup g current b then mergeGroups g (current ++ [b]) merged rest
    else mergeGroups g [b] (merged ++ [_merge_box_group current]) rest

/-- SymbolSplitter.merge_close_boxes (symbol_splitter.py lines 144-193). -/
def merge_close_boxes (bboxes : List Box) (max_gap : Nat) : List Box :=
  match sort_boxes_left_to_right bboxes with
  | [] => []
  | b :: rest => mergeGroups max_gap [b] [] rest

/-- SymbolSplitter.find_contours (symbol_splitter.py lines 119-142): the
contour extraction itself is cv2.findContours / cv2.boundingRect (external);
the repository code filters the resulting boxes by the minimum size.  The raw
bounding boxes are passed in as contoursRaw. -/
def find_contours (contoursRaw : List Box) (min_w min_h : Nat) : List Box :=
  contoursRaw.filter (fun b => decide (min_w ≤ b.w) && decide (min_h ≤ b.h))

/-- Numpy sub-image image[y:y+h, x:x+w] (symbol_splitter.py line 242); numpy
slicing clamps at the ends exactly as drop/take do. -/
def cropImage (img : GrayImage) (b : Box) : GrayImage :=
  ((img.drop b.y).take b.h).map (fun row => (row.drop b.x).take b.w)

/-- SymbolSplitter.extract_symbols (symbol_splitter.py lines 225-246). -/
def extract_symbols (img : GrayImage) (bboxes : List Box) :
    List (GrayImage × Box) :=
  bboxes.map (fun b => (cropImage img b, b))

/-- SymbolSplitter.split_to_symbols (symbol_splitter.py lines 248-288):
binarize, run the projection segmenter (when enabled) and the contour
segmenter with gap-merging, pick by box count, sort left to right, extract.
otsuT and contoursRaw stand for the external OpenCV results as above. -/
def split_to_symbols (image : GrayImage) (otsuT : Nat) (contoursRaw : List Box)
    (min_w min_h : Nat) (use_projection : Bool) : List (GrayImage × Box) :=
  let binary := preprocess_image image otsuT
  let bboxes_projection :=
    if use_projection then split_by_projection binary 1 min_w min_h else []
  let bboxes_contours := merge_close_boxes (find_contours contoursRaw min_w min_h) 1
  let bboxes :=
    if bboxes_projection.length < bboxes_contours.length then bboxes_contours
    else if 0 < bboxes_projection.length then bboxes_projection
    else bboxes_contours
  extract_symbols image (sort_boxes_left_to_right bboxes)

/-- Editor-side rectangle for one symbol in labeling_mode.py: the integers
int(scene_pos.x() / display_scale), int(scene_pos.y() / display_scale),
int(rect_geom.width() / display_scale), int(rect_geom.height() / display_scale)
computed on lines 1200-1211.  The UI geometry and the float division are
external, so the four integers are arbitrary (possibly negative). -/
structure SceneRect where
  x : Int
  y : Int
  w : Int
  h : Int
deriving DecidableEq, Repr

/-- Clamping of one symbol rectangle to the image bounds before cropping
(labeling_mode.py lines 1213-1218). -/
def clampBox (imgH imgW : Nat) (r : SceneRect) : Box :=
  let cx : Int := max 0 (min r.x ((imgW : Int) - 1))
  let cy : Int := max 0 (min r.y ((imgH : Int) - 1))
  let cw : Int := max 1 (min r.w ((imgW : Int) - cx))
  let ch : Int := max 1 (min r.h ((imgH : Int) - cy))
  ⟨cx.toNat, cy.toNat, cw.toNat, ch.toNat⟩

/-- Result of one save_text_label invocation.  saved carries the ordered
(character, clamped box) pairs handed to the template manager; the per-pair
cv2.imwrite outcomes are external. -/
inductive SaveOutcome where
  | errNoTextOrRegions
  | errMismatch
  | cancelled
  | saved (pairs : List (Char × Box))
deriving DecidableEq, Repr

/-- Python str.strip() on the entered text (labeling_mode.py line 1187):
whitespace removed from both ends. -/
def pyStrip (l : List Char) : List Char :=
  ((l.dropWhile Char.isWhitespace).reverse.dropWhile Char.isWhitespace).reverse

/-- save_text_label (labeling_mode.py lines 1185-1268): strip the entered
text; block when the text or the rectangle list is empty; block when the
stripped length differs from the rectangle count; otherwise clamp every
rectangle, crop, show the verification dialog (verify_symbol_template always
returns valid), and persist each (character, box) pair when the human
confirms.  confirm models the QMessageBox reply. -/
def save_text_label (current_text : List Char) (rects : List SceneRect)
    (imgH imgW : Nat) (confirm : Bool) : SaveOutcome :=
  let text := pyStrip current_text
  if text = [] ∨ rects = [] then .errNoTextOrRegions
  else if text.length ≠ rects.length then .errMismatch
  else
    let pairs := (text.zip rects).map (fun cr => (cr.1, clampBox imgH imgW cr.2))
    if confirm then .saved pairs else .cancelled

/-- TemplateManager.CARD_RANKS (template_manager.py line 12). -/
def CARD_RANKS : List String :=
  ["2", "3", "4", "5", "6", "7", "8", "9", "T", "J", "Q", "K", "A"]

/-- TemplateManager.CARD_SUITS (template_manager.py line 13). -/
def CARD_SUITS : List String := ["c", "d", "h", "s"]

/-- TemplateManager.DIGITS (template_manager.py line 33). -/
def DIGITS : List Char := ['0', '1', '2', '3', '4', '5', '6', '7', '8', '9', '.']

/-- Valid categories of save_symbol_template (template_manager.py line 344). -/
def SYMBOL_CATEGORIES : List String := ["letters_lat", "letters_cyr", "special"]

/-- TemplateManager.save_card_template (template_manager.py lines 52-72).
The store is the list of files written so far; writeOk models the
cv2.imwrite result. -/
def save_card_template (store : List String) (rank suit : String)
    (writeOk : Bool) : Option String × List String :=
  if rank ∈ CARD_RANKS then
    if suit ∈ CARD_SUITS then
      let path := "cards/" ++ rank ++ suit ++ ".png"
      if writeOk then (some path, store ++ [path]) else (none, store)
    else (none, store)
  else (none, store)

/-- Filename computed by TemplateManager.save_digit_template
(template_manager.py lines 304-330); the timestamp is external.  Returns none
on the invalid-digit early return. -/
def digit_template_filename (digit : Char) (timestamp : String) : Option String :=
  if digit ∈ DIGITS then
    some ((if digit = '.' then "dot" else String.singleton digit) ++
          "_" ++ timestamp ++ ".png")
  else none

/-- Concrete values of the external Python predicate str.isalnum, used only
to instantiate the closed statements below at specific characters: it agrees
with Python at every character it is applied to in this file (ASCII
alphanumerics and the basic Cyrillic letters are alphanumeric in Python,
ASCII punctuation is not).  The table is deliberately partial - Python
accepts many more Unicode alphanumerics, such as extended Cyrillic, Greek or
accented Latin letters - so the general key-convention theorem quantifies
over the external predicate instead of relying on this table. -/
def pyIsAlnum (c : Char) : Bool :=
  c.isAlphanum || (0x410 ≤ c.toNat && c.toNat ≤ 0x44F) ||
    c.toNat == 0x401 || c.toNat == 0x451

/-- Python format f-string 04x: lowercase hex, zero-padded to width 4. -/
def hex4 (n : Nat) : String :=
  let ds := Nat.toDigits 16 n
  String.mk (List.replicate (4 - ds.length) '0' ++ ds)

/-- Filename computed by TemplateManager.save_symbol_template
(template_manager.py lines 332-361).  The test symbol.isalnum() on line 352
calls the external, Unicode-aware Python predicate str.isalnum; like the
other external library calls it is passed in as the parameter isalnum. -/
def symbol_template_filename (isalnum : Char → Bool) (symbol : Char)
    (category timestamp : String) : Option String :=
  if category ∈ SYMBOL_CATEGORIES then
    some ((if isalnum symbol then String.singleton symbol
           else "char_" ++ hex4 symbol.toNat) ++ "_" ++ timestamp ++ ".png")
  else none

/-- cv2.adaptiveThreshold(image, 255, ADAPTIVE_THRESH_GAUSSIAN_C,
THRESH_BINARY, 11, 2) as called by binarize_image (image_utils.py
lines 175-178).  T y x is the OpenCV-computed local threshold (the
Gaussian-weighted 11x11 neighbourhood mean minus the constant 2), passed in
as an external parameter; THRESH_BINARY maps a pixel to 255 exactly when it
is strictly above its local threshold, with no inversion. -/
def adaptive_threshold (img : GrayImage) (T : Nat → Nat → Int) : GrayImage :=
  (List.range img.length).map (fun y =>
    (List.range ((img.getD y []).length)).map (fun x =>
      if T y x < ((img.getD y []).getD x 0 : Int) then 255 else 0))

/-- binarize_image (image_utils.py lines 164-184): method dispatch.  The
otsu branch uses THRESH_BINARY (not INV) with the external Otsu value; the
default branch is the fixed threshold 127. -/
def binarize_image (img : GrayImage) (method : String) (T : Nat → Nat → Int)
    (otsuT : Nat) : GrayImage :=
  if method = "adaptive" then adaptive_threshold img T
  else if method = "otsu" then
    img.map (List.map (fun p => if otsuT < p then 255 else 0))
  else
    img.map (List.map (fun p => if 127 < p then 255 else 0))

/-- Modelled from the spec: the local adaptive binarization policy as the
specification words it (spec section 4.1 and claim C5) - smooth, threshold
against the local neighbourhood mean, INVERTED so that text (dark) pixels end
up as foreground 255.  The input is the already-smoothed image and T is the
same external local threshold; the only difference exercised against the code
is the inversion. -/
def binarize_adaptive_spec (blurred : GrayImage) (T : Nat → Nat → Int) :
    GrayImage :=
  (List.range blurred.length).map (fun y =>
    (List.range ((blurred.getD y []).length)).map (fun x =>
      if T y x < ((blurred.getD y []).getD x 0 : Int) then 0 else 255))

/-- Box m geometrically contains box b. -/
def boxContains (m b : Box) : Prop :=
  m.x ≤ b.x ∧ m.y ≤ b.y ∧ b.x + b.w ≤ m.x + m.w ∧ b.y + b.h ≤ m.y + m.h

instance (m b : Box) : Decidable (boxContains m b) := by
  unfold boxContains; exact inferInstance

/-- Box b lies inside an image of height H and width W. -/
def inBoundsBox (H W : Nat) (b : Box) : Prop :=
  b.x + b.w ≤ W ∧ b.y + b.h ≤ H

instance (H W : Nat) (b : Box) : Decidable (inBoundsBox H W b) := by
  unfold inBoundsBox; exact inferInstance

/-- Concrete mask for claim C3: 10 rows by 3 columns with a single ink pixel
at row 3 of column 1.  Column 1 has projection 1, above the noise threshold
(20 * 1 > 10), so it is a one-column non-gap run flanked by gap columns,
yet its ink-row extent has height 1 < min_height = 2. -/
def c3Mask : Mask :=
  (List.range 10).map (fun y => (List.range 3).map (fun x => y = 3 && x = 1))

/-- Concrete grayscale image for claims C1 and C6: 5 rows by 9 columns, dark
(0) at columns 1, 4, 7 on rows 1..3, bright (255) elsewhere.  With Otsu
threshold 128 the projection segmenter finds the three boxes
(1,1,1,3), (4,1,1,3), (7,1,1,3). -/
def img1 : GrayImage :=
  (List.range 5).map (fun y =>
    (List.range 9).map (fun x =>
      if (x = 1 ∨ x = 4 ∨ x = 7) ∧ (1 ≤ y ∧ y ≤ 3) then 0 else 255))

/-- Three well-separated contour boxes for img1 (tie with projection). -/
def contours3 : List Box := [⟨1, 1, 1, 3⟩, ⟨4, 1, 1, 3⟩, ⟨7, 1, 1, 3⟩]

/-- Four well-separated contour boxes (contour count exceeds projection). -/
def contours4 : List Box := [⟨1, 1, 1, 3⟩, ⟨4, 1, 1, 3⟩, ⟨7, 1, 1, 3⟩, ⟨20, 1, 1, 3⟩]

/-- Concrete input refuting idempotence of merge_close_boxes (claim C2).
With max_gap = 1 the first two boxes merge into (0,0,3,4) whose enlarged
vertical extent then overlaps the third box within the gap tolerance, so a
second application merges again. -/
def c2L : List Box := [⟨0, 0, 2, 2⟩, ⟨1, 2, 2, 2⟩, ⟨4, 0, 1, 1⟩]

/-- Concrete input for claim C9: the second box is geometrically nested in
the first, but their horizontal gap min(abs(50-100), abs(0-60)) = 50 exceeds
max_gap, so they stay separate groups. -/
def c9L : List Box := [⟨0, 0, 100, 2⟩, ⟨50, 0, 10, 2⟩]

/-- Concrete image for claim C5: 11 x 11, uniform bright background 200 with
one dark text pixel 10 at the centre. -/
def cImg : GrayImage :=
  (List.range 11).map (fun y =>
    (List.range 11).map (fun x => if y = 5 ∧ x = 5 then 10 else 200))

/-- External local threshold for cImg: the Gaussian-weighted 11 x 11 mean of
this almost uniform image is close to 200 everywhere (the single dark pixel
lowers it by under 8), minus the constant 2; the constant 190 is a faithful
stand-in at every pixel for the purpose of the comparison below, and any
3 x 3 Gaussian smoothing of cImg also leaves every pixel at or below 200 and
the centre pixel at most 152, so both sides of the comparison are insensitive
to the exact external values. -/
def cT : Nat → Nat → Int := fun _ _ => 190

/-- Loop invariant of the projection scan used for the bounds claim: every
accumulated box lies inside the mask and, while a symbol is open, its start
column is a real column. -/
def projInv (H W : Nat) (s : ProjState) : Prop :=
  (∀ b ∈ s.bboxes, inBoundsBox H W b) ∧ (s.in_symbol = true → s.start_x < W)

/-! Helper lemmas. -/

theorem extract_symbols_map_snd (img : GrayImage) (bs : List Box) :
    (extract_symbols img bs).map Prod.snd = bs := by
  unfold extract_symbols
  rw [List.map_map]
  exact List.map_id bs

theorem mem_sortX {b : Box} {l : List Box} :
    b ∈ sort_boxes_left_to_right l ↔ b ∈ l :=
  List.mem_insertionSort leX

theorem sortX_sorted (l : List Box) :
    List.Sorted leX (sort_boxes_left_to_right l) :=
  List.sorted_insertionSort leX l

theorem sortX_idem (l : List Box) :
    sort_boxes_left_to_right (sort_boxes_left_to_right l) =
      sort_boxes_left_to_right l :=
  (sortX_sorted l).insertionSort_eq

theorem sortX_length (l : List Box) :
    (sort_boxes_left_to_right l).length = l.length :=
  List.length_insertionSort leX l

theorem foldl_min_le_init (f : Box → Nat) (l : List Box) (a : Nat) :
    l.foldl (fun acc c => min acc (f c)) a ≤ a := by
  induction l generalizing a with
  | nil => exact Nat.le_refl a
  | cons c cs ih =>
    rw [List.foldl_cons]
    exact Nat.le_trans (ih (min a (f c))) (Nat.min_le_left _ _)

theorem foldl_min_le_mem (f : Box → Nat) (l : List Box) :
    ∀ (a : Nat), ∀ b ∈ l, l.foldl (fun acc c => min acc (f c)) a ≤ f b := by
  induction l with
  | nil => intro a b hb; cases hb
  | cons c cs ih =>
    intro a b hb
    rw [List.foldl_cons]
    rcases List.mem_cons.mp hb with h | h
    · subst h
      exact Nat.le_trans (foldl_min_le_init f cs _) (Nat.min_le_right _ _)
    · exact ih _ b h

theorem foldl_min_mem (f : Box → Nat) (l : List Box) :
    ∀ (a : Nat), l.foldl (fun acc c => min acc (f c)) a = a ∨
      ∃ b ∈ l, l.foldl (fun acc c => min acc (f c)) a = f b := by
  induction l with
  | nil => intro a; exact Or.inl rfl
  | cons c cs ih =>
    intro a
    rw [List.foldl_cons]
    rcases ih (min a (f c)) with h | ⟨b, hb, h⟩
    · rcases Nat.le_total a (f c) with hle | hle
      · left; rw [h]; omega
      · right; exact ⟨c, List.mem_cons_self c cs, by rw [h]; omega⟩
    · right; exact ⟨b, List.mem_cons_of_mem _ hb, h⟩

theorem foldl_max_ge_init (f : Box → Nat) (l : List Box) (a : Nat) :
    a ≤ l.foldl (fun acc c => max acc (f c)) a := by
  induction l generalizing a with
  | nil => exact Nat.le_refl a
  | cons c cs ih =>
    rw [List.foldl_cons]
    exact Nat.le_trans (Nat.le_max_left _ _) (ih (max a (f c)))

theorem foldl_max_ge_mem (f : Box → Nat) (l : List Box) :
    ∀ (a : Nat), ∀ b ∈ l, f b ≤ l.foldl (fun acc c => max acc (f c)) a := by
  induction l with
  | nil => intro a b hb; cases hb
  | cons c cs ih =>
    intro a b hb
    rw [List.foldl_cons]
    rcases List.mem_cons.mp hb with h | h
    · subst h
      exact Nat.le_trans (Nat.le_max_right _ _) (foldl_max_ge_init f cs _)
    · exact ih _ b h

theorem foldl_max_mem (f : Box → Nat) (l : List Box) :
    ∀ (a : Nat), l.foldl (fun acc c => max acc (f c)) a = a ∨
      ∃ b ∈ l, l.foldl (fun acc c => max acc (f c)) a = f b := by
  induction l with
  | nil => intro a; exact Or.inl rfl
  | cons c cs ih =>
    intro a
    rw [List.foldl_cons]
    rcases ih (max a (f c)) with h | ⟨b, hb, h⟩
    · rcases Nat.le_total a (f c) with hle | hle
      · right; exact ⟨c, List.mem_cons_self c cs, by rw [h]; omega⟩
      · left; rw [h]; omega
    · right; exact ⟨b, List.mem_cons_of_mem _ hb, h⟩

theorem mbg_cons (c : Box) (cs : List Box) :
    _merge_box_group (c :: cs) =
      ⟨cs.foldl (fun acc d => min acc d.x) c.x,
       cs.foldl (fun acc d => min acc d.y) c.y,
       cs.foldl (fun acc d => max acc (d.x + d.w)) (c.x + c.w) -
         cs.foldl (fun acc d => min acc d.x) c.x,
       cs.foldl (fun acc d => max acc (d.y + d.h)) (c.y + c.h) -
         cs.foldl (fun acc d => min acc d.y) c.y⟩ := rfl

theorem mbg_contains {b : Box} {G : List Box} (hb : b ∈ G) :
    boxContains (_merge_box_group G) b := by
  match G, hb with
  | c :: cs, hb =>
    rw [mbg_cons]
    have hminx : (cs.foldl (fun acc d => min acc d.x) c.x) ≤ b.x := by
      rcases List.mem_cons.mp hb with h | h
      · subst h; exact foldl_min_le_init _ _ _
      · exact foldl_min_le_mem _ _ _ b h
    have hminy : (cs.foldl (fun acc d => min acc d.y) c.y) ≤ b.y := by
      rcases List.mem_cons.mp hb with h | h
      · subst h; exact foldl_min_le_init _ _ _
      · exact foldl_min_le_mem _ _ _ b h
    have hmaxx : b.x + b.w ≤
        (cs.foldl (fun acc d => max acc (d.x + d.w)) (c.x + c.w)) := by
      rcases List.mem_cons.mp hb with h | h
      · subst h; exact foldl_max_ge_init _ _ _
      · exact foldl_max_ge_mem (fun d => d.x + d.w) cs _ b h
    have hmaxy : b.y + b.h ≤
        (cs.foldl (fun acc d => max acc (d.y + d.h)) (c.y + c.h)) := by
      rcases List.mem_cons.mp hb with h | h
      · subst h; exact foldl_max_ge_init _ _ _
      · exact foldl_max_ge_mem (fun d => d.y + d.h) cs _ b h
    have hx0 : (cs.foldl (fun acc d => min acc d.x) c.x) ≤ c.x :=
      foldl_min_le_init _ _ _
    have hx1 : c.x + c.w ≤
        (cs.foldl (fun acc d => max acc (d.x + d.w)) (c.x + c.w)) :=
      foldl_max_ge_init _ _ _
    have hy0 : (cs.foldl (fun acc d => min acc d.y) c.y) ≤ c.y :=
      foldl_min_le_init _ _ _
    have hy1 : c.y + c.h ≤
        (cs.foldl (fun acc d => max acc (d.y + d.h)) (c.y + c.h)) :=
      foldl_max_ge_init _ _ _
    unfold boxContains
    dsimp only
    omega

theorem mbg_tight (c : Box) (cs : List Box) :
    (∃ b1 ∈ c :: cs, (_merge_box_group (c :: cs)).x = b1.x) ∧
    (∃ b2 ∈ c :: cs, (_merge_box_group (c :: cs)).y = b2.y) ∧
    (∃ b3 ∈ c :: cs,
      (_merge_box_group (c :: cs)).x + (_merge_box_group (c :: cs)).w =
        b3.x + b3.w) ∧
    (∃ b4 ∈ c :: cs,
      (_merge_box_group (c :: cs)).y + (_merge_box_group (c :: cs)).h =
        b4.y + b4.h) := by
  rw [mbg_cons]
  dsimp only
  have hx0 : (cs.foldl (fun acc d => min acc d.x) c.x) ≤ c.x :=
    foldl_min_le_init _ _ _
  have hx1 : c.x + c.w ≤
      (cs.foldl (fun acc d => max acc (d.x + d.w)) (c.x + c.w)) :=
    foldl_max_ge_init _ _ _
  have hy0 : (cs.foldl (fun acc d => min acc d.y) c.y) ≤ c.y :=
    foldl_min_le_init _ _ _
  have hy1 : c.y + c.h ≤
      (cs.foldl (fun acc d => max acc (d.y + d.h)) (c.y + c.h)) :=
    foldl_max_ge_init _ _ _
  refine ⟨?_, ?_, ?_, ?_⟩
  · rcases foldl_min_mem (fun d => d.x) cs c.x with h | ⟨b, hb, h⟩
    · exact ⟨c, List.mem_cons_self c cs, h⟩
    · exact ⟨b, List.mem_cons_of_mem _ hb, h⟩
  · rcases foldl_min_mem (fun d => d.y) cs c.y with h | ⟨b, hb, h⟩
    · exact ⟨c, List.mem_cons_self c cs, h⟩
    · exact ⟨b, List.mem_cons_of_mem _ hb, h⟩
  · rcases foldl_max_mem (fun d => d.x + d.w) cs (c.x + c.w) with h | ⟨b, hb, h⟩
    · exact ⟨c, List.mem_cons_self c cs, by omega⟩
    · refine ⟨b, List.mem_cons_of_mem _ hb, ?_⟩
      have := foldl_max_ge_mem (fun d => d.x + d.w) cs (c.x + c.w) b hb
      omega
  · rcases foldl_max_mem (fun d => d.y + d.h) cs (c.y + c.h) with h | ⟨b, hb, h⟩
    · exact ⟨c, List.mem_cons_self c cs, by omega⟩
    · refine ⟨b, List.mem_cons_of_mem _ hb, ?_⟩
      have := foldl_max_ge_mem (fun d => d.y + d.h) cs (c.y + c.h) b hb
      omega

theorem mbg_inB {H W : Nat} {G : List Box} (hne : G ≠ [])
    (h : ∀ b ∈ G, inBoundsBox H W b) : inBoundsBox H W (_merge_box_group G) := by
  match G, hne with
  | c :: cs, _ =>
    rw [mbg_cons]
    unfold inBoundsBox at h ⊢
    dsimp only
    have hx0 : (cs.foldl (fun acc d => min acc d.x) c.x) ≤ c.x :=
      foldl_min_le_init _ _ _
    have hy0 : (cs.foldl (fun acc d => min acc d.y) c.y) ≤ c.y :=
      foldl_min_le_init _ _ _
    have hx1 : c.x + c.w ≤
        (cs.foldl (fun acc d => max acc (d.x + d.w)) (c.x + c.w)) :=
      foldl_max_ge_init _ _ _
    have hy1 : c.y + c.h ≤
        (cs.foldl (fun acc d => max acc (d.y + d.h)) (c.y + c.h)) :=
      foldl_max_ge_init _ _ _
    have hmx : (cs.foldl (fun acc d => max acc (d.x + d.w)) (c.x + c.w)) ≤ W := by
      rcases foldl_max_mem (fun d => d.x + d.w) cs (c.x + c.w) with heq | ⟨b, hb, heq⟩
      · rw [heq]; exact (h c (List.mem_cons_self c cs)).1
      · rw [heq]; exact (h b (List.mem_cons_of_mem _ hb)).1
    have hmy : (cs.foldl (fun acc d => max acc (d.y + d.h)) (c.y + c.h)) ≤ H := by
      rcases foldl_max_mem (fun d => d.y + d.h) cs (c.y + c.h) with heq | ⟨b, hb, heq⟩
      · rw [heq]; exact (h c (List.mem_cons_self c cs)).2
      · rw [heq]; exact (h b (List.mem_cons_of_mem _ hb)).2
    omega

theorem mergeGroups_mem_merged (g : Nat) :
    ∀ (rest cur merged : List Box) (m : Box), m ∈ merged →
      m ∈ mergeGroups g cur merged rest := by
  intro rest
  induction rest with
  | nil =>
    intro cur merged m hm
    unfold mergeGroups
    exact List.mem_append_left _ hm
  | cons b rs ih =>
    intro cur merged m hm
    unfold mergeGroups
    split
    · exact ih _ _ _ hm
    · exact ih _ _ _ (List.mem_append_left _ hm)

theorem mergeGroups_covers (g : Nat) :
    ∀ (rest cur merged : List Box) (b : Box), (b ∈ cur ∨ b ∈ rest) →
      ∃ m ∈ mergeGroups g cur merged rest, boxContains m b := by
  intro rest
  induction rest with
  | nil =>
    intro cur merged b hb
    rcases hb with hb | hb
    · refine ⟨_merge_box_group cur, ?_, mbg_contains hb⟩
      unfold mergeGroups
      exact List.mem_append_right _ (List.mem_cons_self _ _)
    · cases hb
  | cons c rs ih =>
    intro cur merged b hb
    unfold mergeGroups
    split
    · apply ih
      rcases hb with hb | hb
      · exact Or.inl (List.mem_append_left _ hb)
      · rcases List.mem_cons.mp hb with h | h
        · subst h
          exact Or.inl (List.mem_append_right _ (List.mem_cons_self _ _))
        · exact Or.inr h
    · rcases hb with hb | hb
      · exact ⟨_merge_box_group cur,
          mergeGroups_mem_merged g rs [c] _ _
            (List.mem_append_right _ (List.mem_cons_self _ _)),
          mbg_contains hb⟩
      · rcases List.mem_cons.mp hb with h | h
        · subst h
          exact ih [b] _ b (Or.inl (List.mem_cons_self _ _))
        · exact ih [c] _ b (Or.inr h)

theorem mergeGroups_shape (g : Nat) :
    ∀ (rest cur merged : List Box) (m : Box), cur ≠ [] →
      m ∈ mergeGroups g cur merged rest →
      m ∈ merged ∨
        ∃ G, G ≠ [] ∧ (∀ b ∈ G, b ∈ cur ∨ b ∈ rest) ∧
          m = _merge_box_group G := by
  intro rest
  induction rest with
  | nil =>
    intro cur merged m hcur hm
    unfold mergeGroups at hm
    rcases List.mem_append.mp hm with h | h
    · exact Or.inl h
    · right
      refine ⟨cur, hcur, fun b hb => Or.inl hb, ?_⟩
      rcases List.mem_cons.mp h with h2 | h2
      · exact h2
      · cases h2
  | cons c rs ih =>
    intro cur merged m hcur hm
    unfold mergeGroups at hm
    split at hm
    · rcases ih _ _ _ (by simp) hm with h | ⟨G, hG, hsub, hmg⟩
      · exact Or.inl h
      · right
        refine ⟨G, hG, ?_, hmg⟩
        intro b hb
        rcases hsub b hb with h2 | h2
        · rcases List.mem_append.mp h2 with h3 | h3
          · exact Or.inl h3
          · right
            rcases List.mem_cons.mp h3 with h4 | h4
            · subst h4; exact List.mem_cons_self _ _
            · cases h4
        · exact Or.inr (List.mem_cons_of_mem _ h2)
    · rcases ih _ _ _ (by simp) hm with h | ⟨G, hG, hsub, hmg⟩
      · rcases List.mem_append.mp h with h2 | h2
        · exact Or.inl h2
        · right
          refine ⟨cur, hcur, fun b hb => Or.inl hb, ?_⟩
          rcases List.mem_cons.mp h2 with h3 | h3
          · exact h3
          · cases h3
      · right
        refine ⟨G, hG, ?_, hmg⟩
        intro b hb
        rcases hsub b hb with h2 | h2
        · rcases List.mem_cons.mp h2 with h3 | h3
          · subst h3; exact Or.inr (List.mem_cons_self _ _)
          · cases h3
        · exact Or.inr (List.mem_cons_of_mem _ h2)

theorem mergeGroups_length (g : Nat) :
    ∀ (rest cur merged : List Box),
      (mergeGroups g cur merged rest).length ≤
        merged.length + 1 + rest.length := by
  intro rest
  induction rest with
  | nil =>
    intro cur merged
    unfold mergeGroups
    simp
  | cons c rs ih =>
    intro cur merged
    unfold mergeGroups
    split
    · have := ih (cur ++ [c]) merged
      simp only [List.length_cons]
      omega
    · have := ih [c] (merged ++ [_merge_box_group cur])
      simp only [List.length_append, List.length_cons, List.length_nil] at this ⊢
      omega

theorem merge_covers (l : List Box) (g : Nat) {b : Box} (hb : b ∈ l) :
    ∃ m ∈ merge_close_boxes l g, boxContains m b := by
  unfold merge_close_boxes
  split
  next heq =>
    exfalso
    have h2 : b ∈ sort_boxes_left_to_right l := mem_sortX.mpr hb
    rw [heq] at h2
    cases h2
  next c rest heq =>
    have h2 : b ∈ c :: rest := by
      rw [← heq]
      exact mem_sortX.mpr hb
    rcases List.mem_cons.mp h2 with h | h
    · exact mergeGroups_covers g rest [c] [] b
        (Or.inl (by rw [h]; exact List.mem_cons_self _ _))
    · exact mergeGroups_covers g rest [c] [] b (Or.inr h)

theorem merge_shape (l : List Box) (g : Nat) {m : Box}
    (hm : m ∈ merge_close_boxes l g) :
    ∃ G, G ≠ [] ∧ (∀ b ∈ G, b ∈ l) ∧ m = _merge_box_group G := by
  unfold merge_close_boxes at hm
  split at hm
  next heq => cases hm
  next c rest heq =>
    rcases mergeGroups_shape g rest [c] [] m (by simp) hm with h | ⟨G, hG, hsub, hmg⟩
    · cases h
    · refine ⟨G, hG, ?_, hmg⟩
      intro b hb
      have h3 : b ∈ c :: rest := by
        rcases hsub b hb with h2 | h2
        · rcases List.mem_cons.mp h2 with h4 | h4
          · subst h4; exact List.mem_cons_self _ _
          · cases h4
        · exact List.mem_cons_of_mem _ h2
      have h4 : b ∈ sort_boxes_left_to_right l := by rw [heq]; exact h3
      exact mem_sortX.mp h4

theorem merge_length_le (l : List Box) (g : Nat) :
    (merge_close_boxes l g).length ≤ l.length := by
  unfold merge_close_boxes
  split
  next heq => simp
  next c rest heq =>
    have h1 := mergeGroups_length g rest [c] []
    have h2 : (sort_boxes_left_to_right l).length = l.length := sortX_length l
    rw [heq] at h2
    simp only [List.length_cons, List.length_nil] at h1 h2
    omega

theorem merge_of_sorted (l : List Box) (g : Nat) :
    merge_close_boxes (sort_boxes_left_to_right l) g = merge_close_boxes l g := by
  unfold merge_close_boxes
  rw [sortX_idem]

theorem getLastD_mem_cons : ∀ (l : List Nat) (a d : Nat),
    (a :: l).getLastD d ∈ a :: l := by
  intro l
  induction l with
  | nil =>
    intro a d
    simp [List.getLastD]
  | cons b bs ih =>
    intro a d
    rw [List.getLastD_cons]
    exact List.mem_cons_of_mem _ (ih b a)

theorem emitBox_some {m : Mask} {s e mw mh : Nat} {box : Box}
    (h : emitBox m s e mw mh = some box) :
    box.x = s ∧ box.w = e - s ∧ box.y < maskHeight m ∧
      box.y + box.h ≤ maskHeight m ∧ mw ≤ box.w ∧ mh ≤ box.h := by
  unfold emitBox at h
  split at h
  next heq => cases h
  next y0 rest heq =>
    have hy0 : y0 < maskHeight m := by
      have h1 : y0 ∈ (List.range (maskHeight m)).filter
          (fun y => decide (0 < rowInk m y s e)) := by
        rw [heq]; exact List.mem_cons_self _ _
      exact List.mem_range.mp (List.mem_filter.mp h1).1
    have hlast : (y0 :: rest).getLastD 0 < maskHeight m := by
      have h1 : (y0 :: rest).getLastD 0 ∈ (List.range (maskHeight m)).filter
          (fun y => decide (0 < rowInk m y s e)) := by
        rw [heq]; exact getLastD_mem_cons rest y0 0
      exact List.mem_range.mp (List.mem_filter.mp h1).1
    dsimp only at h
    split at h
    next hcond =>
      injection h with h
      subst h
      dsimp only
      refine ⟨rfl, rfl, hy0, ?_, hcond.1, hcond.2⟩
      omega
    next hcond => cases h

theorem projStep_bboxes_append (m : Mask) (mg mw mh : Nat) (s : ProjState)
    (x : Nat) : ∃ t, (projStep m mg mw mh s x).bboxes = s.bboxes ++ t := by
  unfold projStep
  split
  · exact ⟨[], by simp⟩
  · dsimp only
    split
    · exact ⟨_, rfl⟩
    · exact ⟨[], by simp⟩
  · exact ⟨[], by simp⟩
  · exact ⟨[], by simp⟩

theorem projStep_bboxes_mono (m : Mask) (mg mw mh : Nat) (s : ProjState)
    (x : Nat) {b : Box} (hb : b ∈ s.bboxes) :
    b ∈ (projStep m mg mw mh s x).bboxes := by
  obtain ⟨t, ht⟩ := projStep_bboxes_append m mg mw mh s x
  rw [ht]
  exact List.mem_append_left _ hb

theorem foldl_projStep_bboxes_mono (m : Mask) (mg mw mh : Nat) :
    ∀ (xs : List Nat) (s : ProjState) {b : Box}, b ∈ s.bboxes →
      b ∈ (xs.foldl (projStep m mg mw mh) s).bboxes := by
  intro xs
  induction xs with
  | nil => intro s b hb; exact hb
  | cons x xs ih =>
    intro s b hb
    rw [List.foldl_cons]
    exact ih _ (projStep_bboxes_mono m mg mw mh s x hb)

theorem projStep_gap_closes (m : Mask) (mw mh : Nat) (s : ProjState) {x : Nat}
    (hg : isGapCol m x = true) :
    (projStep m 1 mw mh s x).in_symbol = false := by
  unfold projStep
  split
  next hgap hsym => rw [hgap] at hg; cases hg
  next hgap hsym =>
    dsimp only
    split
    · rfl
    · omega
  next hgap hsym => rw [hgap] at hg; cases hg
  next hgap hsym => exact hsym

theorem foldl_projStep_stay (m : Mask) (mw mh : Nat) :
    ∀ (xs : List Nat) (s : ProjState), s.in_symbol = true → s.gap_count = 0 →
      (∀ x ∈ xs, isGapCol m x = false) →
      xs.foldl (projStep m 1 mw mh) s = s := by
  intro xs
  induction xs with
  | nil => intro s _ _ _; rfl
  | cons x xs ih =>
    intro s hin hgc hall
    have hx : isGapCol m x = false := hall x (List.mem_cons_self _ _)
    have hstep : projStep m 1 mw mh s x = s := by
      obtain ⟨i, st, gc, bbs⟩ := s
      simp only at hin hgc
      subst hin
      subst hgc
      unfold projStep
      rw [hx]
    rw [List.foldl_cons, hstep]
    exact ih s hin hgc (fun y hy => hall y (List.mem_cons_of_mem _ hy))

theorem foldl_projStep_run (m : Mask) (mw mh : Nat) (xs : List Nat) (a : Nat)
    (s : ProjState) (hin : s.in_symbol = false)
    (hall : ∀ x ∈ a :: xs, isGapCol m x = false) :
    (a :: xs).foldl (projStep m 1 mw mh) s = ⟨true, a, 0, s.bboxes⟩ := by
  have ha : isGapCol m a = false := hall a (List.mem_cons_self _ _)
  have hstep : projStep m 1 mw mh s a = ⟨true, a, 0, s.bboxes⟩ := by
    obtain ⟨i, st, gc, bbs⟩ := s
    simp only at hin
    subst hin
    unfold projStep
    rw [ha]
  rw [List.foldl_cons, hstep]
  exact foldl_projStep_stay m mw mh xs _ rfl rfl
    (fun y hy => hall y (List.mem_cons_of_mem _ hy))

theorem projStep_close (m : Mask) (mw mh a b : Nat) (B : List Box)
    (hb1 : 1 ≤ b) (hg : isGapCol m b = true) :
    projStep m 1 mw mh ⟨true, a, 0, B⟩ b =
      ⟨false, a, 0, B ++ (emitBox m a b mw mh).toList⟩ := by
  unfold projStep
  rw [hg]
  dsimp only
  rw [if_pos (by omega)]
  have h2 : b - (0 + 1) + 1 = b := by omega
  rw [h2]

theorem projStep_inv (m : Mask) (mw mh : Nat) {s : ProjState} {x : Nat}
    (hx : x < maskWidth m)
    (hs : projInv (maskHeight m) (maskWidth m) s) :
    projInv (maskHeight m) (maskWidth m) (projStep m 1 mw mh s x) := by
  obtain ⟨hbb, hstart⟩ := hs
  unfold projStep
  split
  next hgap hsym =>
    exact ⟨hbb, fun _ => hx⟩
  next hgap hsym =>
    dsimp only
    split
    · refine ⟨?_, fun hh => nomatch hh⟩
      intro b hb
      rcases List.mem_append.mp hb with h | h
      · exact hbb b h
      · rcases hemit : emitBox m s.start_x (x - (s.gap_count + 1) + 1) mw mh with _ | box
        · rw [hemit] at h; cases h
        · rw [hemit] at h
          rcases List.mem_cons.mp h with h2 | h2
          · subst h2
            obtain ⟨hbx, hbw, hby, hbyh, _, _⟩ := emitBox_some hemit
            have hst : s.start_x < maskWidth m := hstart hsym
            constructor
            · omega
            · exact hbyh
          · cases h2
    · exact ⟨hbb, fun _ => hstart hsym⟩
  next hgap hsym =>
    exact ⟨hbb, fun _ => hstart hsym⟩
  next hgap hsym =>
    exact ⟨hbb, fun hh => absurd hh (by rw [hsym]; exact Bool.false_ne_true)⟩

theorem foldl_projStep_inv (m : Mask) (mw mh : Nat) :
    ∀ (xs : List Nat) (s : ProjState), (∀ x ∈ xs, x < maskWidth m) →
      projInv (maskHeight m) (maskWidth m) s →
      projInv (maskHeight m) (maskWidth m) (xs.foldl (projStep m 1 mw mh) s) := by
  intro xs
  induction xs with
  | nil => intro s _ hs; exact hs
  | cons x xs ih =>
    intro s hall hs
    rw [List.foldl_cons]
    exact ih _ (fun y hy => hall y (List.mem_cons_of_mem _ hy))
      (projStep_inv m mw mh (hall x (List.mem_cons_self _ _)) hs)

theorem split_by_projection_inB (m : Mask) (mw mh : Nat) :
    ∀ b ∈ split_by_projection m 1 mw mh,
      inBoundsBox (maskHeight m) (maskWidth m) b := by
  intro b hb
  unfold split_by_projection at hb
  have hinv := foldl_projStep_inv m mw mh (List.range (maskWidth m))
    ⟨false, 0, 0, []⟩ (fun x hx => List.mem_range.mp hx)
    ⟨(fun bb hbb => nomatch hbb), (fun hh => nomatch hh)⟩
  dsimp only at hb
  split at hb
  next hsym =>
    rcases List.mem_append.mp hb with h | h
    · exact hinv.1 b h
    · rcases hemit : emitBox m
          ((List.range (maskWidth m)).foldl (projStep m 1 mw mh)
            ⟨false, 0, 0, []⟩).start_x (maskWidth m) mw mh with _ | box
      · rw [hemit] at h; cases h
      · rw [hemit] at h
        rcases List.mem_cons.mp h with h2 | h2
        · subst h2
          obtain ⟨hbx, hbw, hby, hbyh, _, _⟩ := emitBox_some hemit
          have hst := hinv.2 hsym
          constructor
          · omega
          · exact hbyh
        · cases h2
  next hsym => exact hinv.1 b hb

theorem range'_split (s n k : Nat) (h : k ≤ n) :
    List.range' s n = List.range' s k ++ List.range' (s + k) (n - k) := by
  have h1 := List.range'_append s k (n - k) 1
  have h2 : n - k + k = n := by omega
  rw [one_mul] at h1
  rw [h2] at h1
  exact h1.symm

theorem getD_map_range {α : Type} (f : Nat → α) (n i : Nat) (d : α)
    (h : i < n) : (List.map f (List.range n)).getD i d = f i := by
  rw [List.getD_eq_getElem?_getD, List.getElem?_map, List.getElem?_range h]
  rfl

/-! Claim theorems. -/

/-- C10: for every store state, rank, suit and write outcome, if the rank is
not one of the 13 valid ranks or the suit is not one of the 4 valid suits,
save_card_template returns none and the store is unchanged. -/
theorem C10_invalid_card_rejected (store : List String) (rank suit : String)
    (writeOk : Bool) (h : rank ∉ CARD_RANKS ∨ suit ∉ CARD_SUITS) :
    save_card_template store rank suit writeOk = (none, store) := by
  unfold save_card_template
  rcases h with h | h
  · rw [if_neg h]
  · by_cases hr : rank ∈ CARD_RANKS
    · rw [if_pos hr, if_neg h]
    · rw [if_neg hr]

/-- C10 witness: the invalid rank X is rejected with the store untouched. -/
theorem C10_invalid_card_rejected_witness :
    ("X" ∉ CARD_RANKS ∨ "c" ∉ CARD_SUITS) ∧
    save_card_template ["cards/2c.png"] "X" "c" true = (none, ["cards/2c.png"]) :=
  ⟨Or.inl (by decide),
   C10_invalid_card_rejected ["cards/2c.png"] "X" "c" true (Or.inl (by decide))⟩

/-- C8 counterexample: the Cyrillic letter 0x44F is non-ASCII but
alphanumeric under Python str.isalnum (pyIsAlnum records that true value),
so save_symbol_template keys its template by the character itself, not by
the hex code-point token the claim prescribes for non-ASCII characters. -/
theorem C8_nonascii_alnum_cex :
    128 ≤ ('я').toNat ∧ pyIsAlnum 'я' = true ∧
    symbol_template_filename pyIsAlnum 'я' "letters_cyr" "t" =
      some "я_t.png" ∧
    hex4 ('я').toNat = "044f" ∧ ("я_t.png" : String) ≠ "char_044f_t.png" := by
  decide

/-- C8 amended: the digit template for the literal dot character is keyed by
the token dot and the other digits by themselves; and for the external
Unicode-aware predicate str.isalnum, a symbol template is keyed by the
character exactly when the predicate accepts it (which includes non-ASCII
letters such as Cyrillic), and by the hex code-point token char_XXXX exactly
when it does not - stated for every value of the external predicate. -/
theorem C8_key_convention (isalnum : Char → Bool) (ts : String) :
    digit_template_filename '.' ts = some ("dot" ++ "_" ++ ts ++ ".png") ∧
    (∀ c, c ∈ DIGITS → c ≠ '.' →
      digit_template_filename c ts =
        some (String.singleton c ++ "_" ++ ts ++ ".png")) ∧
    (∀ c cat, cat ∈ SYMBOL_CATEGORIES → isalnum c = true →
      symbol_template_filename isalnum c cat ts =
        some (String.singleton c ++ "_" ++ ts ++ ".png")) ∧
    (∀ c cat, cat ∈ SYMBOL_CATEGORIES → isalnum c = false →
      symbol_template_filename isalnum c cat ts =
        some ("char_" ++ hex4 c.toNat ++ "_" ++ ts ++ ".png")) := by
  refine ⟨?_, ?_, ?_, ?_⟩
  · unfold digit_template_filename
    rw [if_pos (by decide), if_pos rfl]
  · intro c hc hne
    unfold digit_template_filename
    rw [if_pos hc, if_neg hne]
  · intro c cat hcat hal
    unfold symbol_template_filename
    rw [if_pos hcat, if_pos hal]
  · intro c cat hcat hal
    unfold symbol_template_filename
    rw [if_pos hcat, if_neg (by rw [hal]; exact Bool.false_ne_true)]

/-- C8 witness: instantiated at the recorded Python values, the dot digit is
keyed dot and the non-alphanumeric percent sign is keyed by its hex
code-point. -/
theorem C8_key_convention_witness :
    digit_template_filename '.' "t" = some "dot_t.png" ∧
    ('%' ∈ DIGITS → False) ∧ pyIsAlnum '%' = false ∧
    symbol_template_filename pyIsAlnum '%' "special" "t" =
      some "char_0025_t.png" := by
  refine ⟨((C8_key_convention pyIsAlnum "t").1).trans (by decide), by decide,
    by decide, ?_⟩
  exact (((C8_key_convention pyIsAlnum "t").2.2.2) '%' "special" (by decide)
    (by decide)).trans (by decide)

/-- C4 counterexample: with an empty entered text and one symbol box the
lengths differ (0 vs 1), yet the save path is blocked with the no-text error
rather than the mismatch error the claim names. -/
theorem C4_empty_text_cex :
    save_text_label [] [⟨0, 0, 5, 5⟩] 10 10 true =
      SaveOutcome.errNoTextOrRegions ∧
    SaveOutcome.errNoTextOrRegions ≠ SaveOutcome.errMismatch ∧
    (pyStrip []).length ≠ [(⟨0, 0, 5, 5⟩ : SceneRect)].length := by
  decide

/-- C4 amended: whenever the stripped entered text and the symbol boxes
disagree in number, save_text_label blocks the save (with the mismatch error
when both the stripped text and the box list are nonempty, and with the
no-text/no-regions error otherwise) and never reaches the cropping and
persisting stage, so no template is written in that call. -/
theorem C4_mismatch_blocks_save (text : List Char) (rects : List SceneRect)
    (imgH imgW : Nat) (confirm : Bool)
    (hlen : (pyStrip text).length ≠ rects.length) :
    (save_text_label text rects imgH imgW confirm = SaveOutcome.errNoTextOrRegions ∨
     save_text_label text rects imgH imgW confirm = SaveOutcome.errMismatch) ∧
    (∀ ps, save_text_label text rects imgH imgW confirm ≠ SaveOutcome.saved ps) ∧
    (pyStrip text ≠ [] → rects ≠ [] →
      save_text_label text rects imgH imgW confirm = SaveOutcome.errMismatch) := by
  unfold save_text_label
  dsimp only
  by_cases h1 : pyStrip text = [] ∨ rects = []
  · rw [if_pos h1]
    refine ⟨Or.inl rfl, ?_, ?_⟩
    · intro ps hps
      cases hps
    · intro hne1 hne2
      rcases h1 with h | h
      · exact absurd h hne1
      · exact absurd h hne2
  · rw [if_neg h1, if_pos hlen]
    refine ⟨Or.inr rfl, ?_, fun _ _ => rfl⟩
    intro ps hps
    cases hps

/-- C4 witness: one character against two boxes is blocked with the mismatch
error. -/
theorem C4_mismatch_blocks_save_witness :
    (pyStrip ['a']).length ≠
      [(⟨0, 0, 5, 5⟩ : SceneRect), ⟨6, 0, 5, 5⟩].length ∧
    save_text_label ['a'] [⟨0, 0, 5, 5⟩, ⟨6, 0, 5, 5⟩] 10 10 true =
      SaveOutcome.errMismatch :=
  ⟨by decide,
   (C4_mismatch_blocks_save ['a'] [⟨0, 0, 5, 5⟩, ⟨6, 0, 5, 5⟩] 10 10 true
      (by decide)).2.2 (by decide) (by decide)⟩

/-- C7: on the save path every symbol rectangle is clamped into the image:
x and y land in [0, dim - 1], w and h are at least 1 and satisfy
x + w <= width and y + h <= height, and consequently the crop taken from the
original image has exactly h rows of w pixels, hence is in bounds and
non-empty. -/
theorem C7_clamp_then_crop (imgH imgW : Nat) (r : SceneRect) (img : GrayImage)
    (hH : 1 ≤ imgH) (hW : 1 ≤ imgW) (hlen : img.length = imgH)
    (hrect : ∀ row ∈ img, row.length = imgW) :
    (clampBox imgH imgW r).x ≤ imgW - 1 ∧ (clampBox imgH imgW r).y ≤ imgH - 1 ∧
    1 ≤ (clampBox imgH imgW r).w ∧ 1 ≤ (clampBox imgH imgW r).h ∧
    (clampBox imgH imgW r).x + (clampBox imgH imgW r).w ≤ imgW ∧
    (clampBox imgH imgW r).y + (clampBox imgH imgW r).h ≤ imgH ∧
    (cropImage img (clampBox imgH imgW r)).length = (clampBox imgH imgW r).h ∧
    (∀ row ∈ cropImage img (clampBox imgH imgW r),
      row.length = (clampBox imgH imgW r).w) := by
  have hb : (clampBox imgH imgW r).x ≤ imgW - 1 ∧
      (clampBox imgH imgW r).y ≤ imgH - 1 ∧
      1 ≤ (clampBox imgH imgW r).w ∧ 1 ≤ (clampBox imgH imgW r).h ∧
      (clampBox imgH imgW r).x + (clampBox imgH imgW r).w ≤ imgW ∧
      (clampBox imgH imgW r).y + (clampBox imgH imgW r).h ≤ imgH := by
    unfold clampBox
    dsimp only
    omega
  obtain ⟨h1, h2, h3, h4, h5, h6⟩ := hb
  refine ⟨h1, h2, h3, h4, h5, h6, ?_, ?_⟩
  · unfold cropImage
    rw [List.length_map, List.length_take, List.length_drop, hlen]
    omega
  · intro row hrow
    unfold cropImage at hrow
    rcases List.mem_map.mp hrow with ⟨r0, hr0, hreq⟩
    have hr0img : r0 ∈ img := List.mem_of_mem_drop (List.mem_of_mem_take hr0)
    rw [← hreq, List.length_take, List.length_drop, hrect r0 hr0img]
    omega

/-- C7 witness: a rectangle sticking out on every side of a 2 x 3 image is
clamped to a valid in-bounds crop. -/
theorem C7_clamp_then_crop_witness :
    (clampBox 2 3 ⟨-5, 1, 100, 0⟩).x ≤ 3 - 1 ∧
    (clampBox 2 3 ⟨-5, 1, 100, 0⟩).y ≤ 2 - 1 ∧
    1 ≤ (clampBox 2 3 ⟨-5, 1, 100, 0⟩).w ∧
    1 ≤ (clampBox 2 3 ⟨-5, 1, 100, 0⟩).h ∧
    (clampBox 2 3 ⟨-5, 1, 100, 0⟩).x + (clampBox 2 3 ⟨-5, 1, 100, 0⟩).w ≤ 3 ∧
    (clampBox 2 3 ⟨-5, 1, 100, 0⟩).y + (clampBox 2 3 ⟨-5, 1, 100, 0⟩).h ≤ 2 ∧
    (cropImage [[7, 7, 7], [7, 7, 7]] (clampBox 2 3 ⟨-5, 1, 100, 0⟩)).length =
      (clampBox 2 3 ⟨-5, 1, 100, 0⟩).h ∧
    (∀ row ∈ cropImage [[7, 7, 7], [7, 7, 7]] (clampBox 2 3 ⟨-5, 1, 100, 0⟩),
      row.length = (clampBox 2 3 ⟨-5, 1, 100, 0⟩).w) :=
  C7_clamp_then_crop 2 3 ⟨-5, 1, 100, 0⟩ [[7, 7, 7], [7, 7, 7]]
    (by decide) (by decide) (by decide) (by decide)

/-- C5 counterexample: a dark text pixel (10) on a bright background (200)
with local threshold 190 is mapped to 0 (background) by binarize_image with
method adaptive, while the inverted behaviour the claim describes would map
it to foreground 255. -/
theorem C5_no_inversion_cex :
    (cImg.getD 5 []).getD 5 0 = 10 ∧
    ((binarize_image cImg "adaptive" cT 0).getD 5 []).getD 5 0 = 0 ∧
    ((binarize_adaptive_spec cImg cT).getD 5 []).getD 5 0 = 255 := by
  decide

/-- C5 amended: binarize_image with method adaptive applies no smoothing pass
of its own (the 3 x 3 Gaussian lives in the separate helper preprocess_for_ocr
which binarize_image never calls) and thresholds each pixel against the
OpenCV Gaussian-weighted 11 x 11 local mean minus 2 WITHOUT inversion: a
pixel strictly brighter than its local threshold becomes 255 and every other
pixel becomes 0, so dark text on a light background ends up as background. -/
theorem C5_adaptive_not_inverted (img : GrayImage) (T : Nat → Nat → Int)
    (otsuT : Nat) (y x : Nat) (hy : y < img.length)
    (hx : x < (img.getD y []).length) :
    ((binarize_image img "adaptive" T otsuT).getD y []).getD x 0 =
      if T y x < ((img.getD y []).getD x 0 : Int) then 255 else 0 := by
  unfold binarize_image
  rw [if_pos rfl]
  unfold adaptive_threshold
  rw [getD_map_range _ _ _ _ hy]
  rw [getD_map_range _ _ _ _ hx]

/-- C5 witness: a background pixel of cImg is above its local threshold and
is mapped to 255 by the non-inverted adaptive policy. -/
theorem C5_adaptive_not_inverted_witness :
    ((binarize_image cImg "adaptive" cT 0).getD 0 []).getD 0 0 = 255 :=
  (C5_adaptive_not_inverted cImg cT 0 0 0 (by decide) (by decide)).trans (by decide)

/-- C2 counterexample: merge_close_boxes with max_gap 1 is not idempotent on
c2L; the first pass merges the two left boxes into (0,0,3,4), whose enlarged
vertical extent then overlaps the remaining box within the gap tolerance, so
the second pass merges again. -/
theorem C2_not_idempotent_cex :
    merge_close_boxes (merge_close_boxes c2L 1) 1 ≠ merge_close_boxes c2L 1 := by
  decide

/-- C2 amended: re-running merge_close_boxes on its own output with the same
max_gap never increases the number of boxes, and it returns the same list
whenever the first run performed no merge (that is, returned its input merely
sorted by x); idempotence in general is refuted by the counterexample. -/
theorem C2_second_pass (l : List Box) (g : Nat) :
    (merge_close_boxes (merge_close_boxes l g) g).length ≤
      (merge_close_boxes l g).length ∧
    (merge_close_boxes l g = sort_boxes_left_to_right l →
      merge_close_boxes (merge_close_boxes l g) g = merge_close_boxes l g) := by
  constructor
  · exact merge_length_le (merge_close_boxes l g) g
  · intro h
    rw [h, merge_of_sorted l g, h]

/-- C2 witness: on two distant boxes the first run merges nothing and the
second run is the identity on its output. -/
theorem C2_second_pass_witness :
    merge_close_boxes [⟨0, 0, 1, 1⟩, ⟨5, 0, 1, 1⟩] 1 =
      sort_boxes_left_to_right [⟨0, 0, 1, 1⟩, ⟨5, 0, 1, 1⟩] ∧
    merge_close_boxes (merge_close_boxes [⟨0, 0, 1, 1⟩, ⟨5, 0, 1, 1⟩] 1) 1 =
      merge_close_boxes [⟨0, 0, 1, 1⟩, ⟨5, 0, 1, 1⟩] 1 :=
  ⟨by decide, (C2_second_pass [⟨0, 0, 1, 1⟩, ⟨5, 0, 1, 1⟩] 1).2 (by decide)⟩

/-- C9 counterexample: the nested input box (50,0,10,2) survives merging as
its own output box yet is also geometrically contained in the other output
box (0,0,100,2), so it is contained in two distinct output boxes, refuting
the exactly-one part of the claim. -/
theorem C9_exactly_one_cex :
    merge_close_boxes c9L 1 = c9L ∧
    boxContains ⟨0, 0, 100, 2⟩ ⟨50, 0, 10, 2⟩ ∧
    boxContains ⟨50, 0, 10, 2⟩ ⟨50, 0, 10, 2⟩ ∧
    (⟨0, 0, 100, 2⟩ : Box) ≠ ⟨50, 0, 10, 2⟩ ∧
    (⟨50, 0, 10, 2⟩ : Box) ∈ c9L := by
  decide

/-- C9 amended: every input box is contained in at least one output box of
merge_close_boxes (so no ink region covered by an input box is lost), and
every output box is precisely the union extent of a nonempty group of input
boxes: it contains each group member and its four edges are attained by
group members (x is the minimum x, y the minimum y, x + w the maximum
right edge, y + h the maximum bottom edge of the group). -/
theorem C9_merge_union_extent (l : List Box) (g : Nat) :
    (∀ b ∈ l, ∃ m ∈ merge_close_boxes l g, boxContains m b) ∧
    (∀ m ∈ merge_close_boxes l g, ∃ G, G ≠ [] ∧ (∀ b ∈ G, b ∈ l) ∧
      m = _merge_box_group G ∧ (∀ b ∈ G, boxContains m b) ∧
      (∃ b1 ∈ G, m.x = b1.x) ∧ (∃ b2 ∈ G, m.y = b2.y) ∧
      (∃ b3 ∈ G, m.x + m.w = b3.x + b3.w) ∧
      (∃ b4 ∈ G, m.y + m.h = b4.y + b4.h)) := by
  constructor
  · intro b hb
    exact merge_covers l g hb
  · intro m hm
    obtain ⟨G, hG, hsub, hmg⟩ := merge_shape l g hm
    refine ⟨G, hG, hsub, hmg, fun b hb => hmg ▸ mbg_contains hb, ?_⟩
    match G, hG with
    | c :: cs, _ =>
      rw [hmg]
      exact mbg_tight c cs

/-- C9 witness: on c9L each of the two input boxes is covered by an output
box. -/
theorem C9_merge_union_extent_witness :
    (∃ m ∈ merge_close_boxes c9L 1, boxContains m ⟨0, 0, 100, 2⟩) ∧
    (∃ m ∈ merge_close_boxes c9L 1, boxContains m ⟨50, 0, 10, 2⟩) :=
  ⟨(C9_merge_union_extent c9L 1).1 ⟨0, 0, 100, 2⟩ (by decide),
   (C9_merge_union_extent c9L 1).1 ⟨50, 0, 10, 2⟩ (by decide)⟩

/-- C3 counterexample: in c3Mask the single column 1 is a non-gap run flanked
by a gap column on each side, but its ink occupies one row, so the candidate
box of height 1 is rejected by the minimum-height filter (default 2) and
split_by_projection returns no box at all for that run. -/
theorem C3_min_height_filter_cex :
    isGapCol c3Mask 0 = true ∧ isGapCol c3Mask 1 = false ∧
    isGapCol c3Mask 2 = true ∧ maskWidth c3Mask = 3 ∧
    split_by_projection c3Mask 1 1 2 = [] := by
  decide

/-- C3 amended: for every binary mask, every maximal run of non-gap columns
[a, b) with a gap column immediately on each side produces, with min_gap 1,
the candidate box computed by the emission step (x-span exactly [a, b) and
vertical extent the first-to-last ink row of the run); whenever that
candidate passes the minimum-size filter (run width at least min_width and
ink-row extent at least min_height), the box is returned by
split_by_projection and its horizontal span equals the run exactly. -/
theorem C3_projection_run_exact (m : Mask) (mw mh a b : Nat) (box : Box)
    (ha : 1 ≤ a) (hab : a < b) (hbW : b < maskWidth m)
    (hga : isGapCol m (a - 1) = true) (hgb : isGapCol m b = true)
    (hrun : ∀ x, a ≤ x → x < b → isGapCol m x = false)
    (hemit : emitBox m a b mw mh = some box) :
    box ∈ split_by_projection m 1 mw mh ∧ box.x = a ∧ box.x + box.w = b := by
  obtain ⟨hbx, hbw, hby, hbyh, hmw2, hmh2⟩ := emitBox_some hemit
  refine ⟨?_, hbx, by omega⟩
  have hW : b + 1 ≤ maskWidth m := by omega
  have e1 : List.range' 0 (maskWidth m) =
      List.range' 0 (b + 1) ++
        List.range' (b + 1) (maskWidth m - (b + 1)) := by
    have h := range'_split 0 (maskWidth m) (b + 1) hW
    rw [Nat.zero_add] at h
    exact h
  have e2 : List.range' 0 (b + 1) = List.range' 0 b ++ [b] := by
    have h := range'_split 0 (b + 1) b (by omega)
    rw [Nat.zero_add] at h
    have h2 : b + 1 - b = 1 := by omega
    rw [h2, List.range'_one] at h
    exact h
  have e3 : List.range' 0 b = List.range' 0 a ++ List.range' a (b - a) := by
    have h := range'_split 0 b a (by omega)
    rw [Nat.zero_add] at h
    exact h
  have e4 : List.range' 0 a = List.range' 0 (a - 1) ++ [a - 1] := by
    have h := range'_split 0 a (a - 1) (by omega)
    rw [Nat.zero_add] at h
    have h2 : a - (a - 1) = 1 := by omega
    rw [h2, List.range'_one] at h
    exact h
  have hfold : (List.range (maskWidth m)).foldl (projStep m 1 mw mh)
        ⟨false, 0, 0, []⟩ =
      (List.range' (b + 1) (maskWidth m - (b + 1))).foldl (projStep m 1 mw mh)
        (projStep m 1 mw mh
          ((List.range' a (b - a)).foldl (projStep m 1 mw mh)
            (projStep m 1 mw mh
              ((List.range' 0 (a - 1)).foldl (projStep m 1 mw mh)
                ⟨false, 0, 0, []⟩) (a - 1))) b) := by
    rw [List.range_eq_range', e1, List.foldl_append, e2, List.foldl_append,
      e3, List.foldl_append, e4, List.foldl_append]
    rfl
  have hs2 : (projStep m 1 mw mh
      ((List.range' 0 (a - 1)).foldl (projStep m 1 mw mh) ⟨false, 0, 0, []⟩)
      (a - 1)).in_symbol = false :=
    projStep_gap_closes m mw mh _ hga
  have hconsR : List.range' a (b - a) =
      a :: List.range' (a + 1) (b - a - 1) := by
    have h : b - a = (b - a - 1) + 1 := by omega
    rw [h, List.range'_succ]
    simp
  have hall : ∀ x ∈ a :: List.range' (a + 1) (b - a - 1),
      isGapCol m x = false := by
    intro x hx
    rw [← hconsR] at hx
    have hb2 := List.mem_range'_1.mp hx
    exact hrun x hb2.1 (by omega)
  have hs3 : (List.range' a (b - a)).foldl (projStep m 1 mw mh)
        (projStep m 1 mw mh
          ((List.range' 0 (a - 1)).foldl (projStep m 1 mw mh)
            ⟨false, 0, 0, []⟩) (a - 1)) =
      ⟨true, a, 0,
        (projStep m 1 mw mh
          ((List.range' 0 (a - 1)).foldl (projStep m 1 mw mh)
            ⟨false, 0, 0, []⟩) (a - 1)).bboxes⟩ := by
    rw [hconsR]
    exact foldl_projStep_run m mw mh _ a _ hs2 hall
  have hs4 : projStep m 1 mw mh
        (⟨true, a, 0,
          (projStep m 1 mw mh
            ((List.range' 0 (a - 1)).foldl (projStep m 1 mw mh)
              ⟨false, 0, 0, []⟩) (a - 1)).bboxes⟩ : ProjState) b =
      ⟨false, a, 0,
        (projStep m 1 mw mh
          ((List.range' 0 (a - 1)).foldl (projStep m 1 mw mh)
            ⟨false, 0, 0, []⟩) (a - 1)).bboxes ++
          (emitBox m a b mw mh).toList⟩ :=
    projStep_close m mw mh a b _ (by omega) hgb
  have hmem : box ∈
      ((⟨false, a, 0,
        (projStep m 1 mw mh
          ((List.range' 0 (a - 1)).foldl (projStep m 1 mw mh)
            ⟨false, 0, 0, []⟩) (a - 1)).bboxes ++
          (emitBox m a b mw mh).toList⟩ : ProjState)).bboxes := by
    dsimp only
    rw [hemit]
    exact List.mem_append_right _ (List.mem_cons_self _ _)
  have hfin : box ∈
      ((List.range' (b + 1) (maskWidth m - (b + 1))).foldl (projStep m 1 mw mh)
        (projStep m 1 mw mh
          ((List.range' a (b - a)).foldl (projStep m 1 mw mh)
            (projStep m 1 mw mh
              ((List.range' 0 (a - 1)).foldl (projStep m 1 mw mh)
                ⟨false, 0, 0, []⟩) (a - 1))) b)).bboxes := by
    rw [hs3, hs4]
    exact foldl_projStep_bboxes_mono m 1 mw mh _ _ hmem
  unfold split_by_projection
  dsimp only
  rw [hfold]
  split
  · exact List.mem_append_left _ hfin
  · exact hfin

/-- C3 witness: on the Otsu mask of img1 the run at columns [1,2) is flanked
by gaps, its candidate (1,1,1,3) passes the size filter, and it is returned
with the exact x-span. -/
theorem C3_projection_run_exact_witness :
    emitBox (preprocess_image img1 128) 1 2 1 2 = some ⟨1, 1, 1, 3⟩ ∧
    (⟨1, 1, 1, 3⟩ : Box) ∈
      split_by_projection (preprocess_image img1 128) 1 1 2 ∧
    (⟨1, 1, 1, 3⟩ : Box).x = 1 ∧
    (⟨1, 1, 1, 3⟩ : Box).x + (⟨1, 1, 1, 3⟩ : Box).w = 2 := by
  refine ⟨by decide, ?_⟩
  exact C3_projection_run_exact (preprocess_image img1 128) 1 2 1 2 ⟨1, 1, 1, 3⟩
    (by decide) (by decide) (by decide) (by decide) (by decide)
    (fun x h1 h2 => by
      have hx1 : x = 1 := by omega
      subst hx1
      decide)
    (by decide)

/-- C6: every bounding box returned by split_to_symbols lies entirely within
the source image: x and y are non-negative, x + w is at most the image width
and y + h at most the image height.  The projection boxes satisfy this by the
scan invariant; the contour boxes satisfy it because the external
cv2.findContours bounding rectangles lie inside the mask (hypothesis hc) and
merging takes union extents of such boxes. -/
theorem C6_selector_in_bounds (image : GrayImage) (otsuT : Nat)
    (contoursRaw : List Box) (mw mh : Nat) (up : Bool)
    (hc : ∀ b ∈ contoursRaw, inBoundsBox (imgHeight image) (imgWidth image) b) :
    ∀ s ∈ split_to_symbols image otsuT contoursRaw mw mh up,
      0 ≤ s.2.x ∧ 0 ≤ s.2.y ∧ s.2.x + s.2.w ≤ imgWidth image ∧
        s.2.y + s.2.h ≤ imgHeight image := by
  intro s hs
  have hdimH : maskHeight (preprocess_image image otsuT) = imgHeight image := by
    unfold maskHeight imgHeight preprocess_image
    exact List.length_map _ _
  have hdimW : maskWidth (preprocess_image image otsuT) = imgWidth image := by
    unfold maskWidth imgWidth preprocess_image
    cases image with
    | nil => rfl
    | cons r rs =>
      dsimp only [List.map_cons, List.headD_cons]
      exact List.length_map _ _
  have hcont : ∀ b ∈ merge_close_boxes (find_contours contoursRaw mw mh) 1,
      inBoundsBox (imgHeight image) (imgWidth image) b := by
    intro b hb
    obtain ⟨G, hG, hsub, hmg⟩ := merge_shape _ _ hb
    rw [hmg]
    apply mbg_inB hG
    intro c hcG
    have h1 := hsub c hcG
    unfold find_contours at h1
    exact hc c (List.mem_filter.mp h1).1
  have hproj : ∀ b ∈ split_by_projection (preprocess_image image otsuT) 1 mw mh,
      inBoundsBox (imgHeight image) (imgWidth image) b := by
    intro b hb
    have h1 := split_by_projection_inB (preprocess_image image otsuT) mw mh b hb
    rw [hdimH, hdimW] at h1
    exact h1
  unfold split_to_symbols at hs
  dsimp only at hs
  unfold extract_symbols at hs
  rcases List.mem_map.mp hs with ⟨bb, hbb, hseq⟩
  have hsnd : s.2 = bb := by rw [← hseq]
  rw [hsnd]
  have hbb2 := mem_sortX.mp hbb
  have hsel : ∀ (P C : List Box),
      (∀ b ∈ P, inBoundsBox (imgHeight image) (imgWidth image) b) →
      (∀ b ∈ C, inBoundsBox (imgHeight image) (imgWidth image) b) →
      ∀ b ∈ (if P.length < C.length then C else if 0 < P.length then P else C),
        inBoundsBox (imgHeight image) (imgWidth image) b := by
    intro P C hP hC b hb
    split at hb
    · exact hC b hb
    · split at hb
      · exact hP b hb
      · exact hC b hb
  have hP0 : ∀ b ∈ (if up = true then
        split_by_projection (preprocess_image image otsuT) 1 mw mh else []),
      inBoundsBox (imgHeight image) (imgWidth image) b := by
    intro b hb
    by_cases hup : up = true
    · rw [if_pos hup] at hb
      exact hproj b hb
    · rw [if_neg hup] at hb
      cases hb
  have hinb := hsel _ _ hP0 hcont bb hbb2
  exact ⟨Nat.zero_le _, Nat.zero_le _, hinb.1, hinb.2⟩

/-- C6 witness: the hypothesis holds for contours3 on img1 and the first
returned symbol box lies inside the 5 x 9 image. -/
theorem C6_selector_in_bounds_witness :
    (∀ b ∈ contours3, inBoundsBox (imgHeight img1) (imgWidth img1) b) ∧
    (0 ≤ (⟨1, 1, 1, 3⟩ : Box).x ∧ 0 ≤ (⟨1, 1, 1, 3⟩ : Box).y ∧
      (⟨1, 1, 1, 3⟩ : Box).x + (⟨1, 1, 1, 3⟩ : Box).w ≤ imgWidth img1 ∧
      (⟨1, 1, 1, 3⟩ : Box).y + (⟨1, 1, 1, 3⟩ : Box).h ≤ imgHeight img1) :=
  ⟨by decide,
   C6_selector_in_bounds img1 128 contours3 1 2 true (by decide)
     (cropImage img1 ⟨1, 1, 1, 3⟩, ⟨1, 1, 1, 3⟩) (by decide)⟩

/-- C1: with use_projection enabled the Segmentation Selector returns the
contour-segmenter list exactly when the contour count strictly exceeds the
projection count; otherwise it returns the projection list whenever the
projection segmenter found at least one box; when both are empty the result
is the empty contour result; and the returned boxes are sorted by ascending
x. -/
theorem C1_selector_policy (image : GrayImage) (otsuT : Nat)
    (contoursRaw : List Box) (mw mh : Nat) :
    ((split_by_projection (preprocess_image image otsuT) 1 mw mh).length <
        (merge_close_boxes (find_contours contoursRaw mw mh) 1).length →
      (split_to_symbols image otsuT contoursRaw mw mh true).map Prod.snd =
        sort_boxes_left_to_right
          (merge_close_boxes (find_contours contoursRaw mw mh) 1)) ∧
    ((merge_close_boxes (find_contours contoursRaw mw mh) 1).length ≤
        (split_by_projection (preprocess_image image otsuT) 1 mw mh).length →
      split_by_projection (preprocess_image image otsuT) 1 mw mh ≠ [] →
      (split_to_symbols image otsuT contoursRaw mw mh true).map Prod.snd =
        sort_boxes_left_to_right
          (split_by_projection (preprocess_image image otsuT) 1 mw mh)) ∧
    (split_by_projection (preprocess_image image otsuT) 1 mw mh = [] →
      merge_close_boxes (find_contours contoursRaw mw mh) 1 = [] →
      (split_to_symbols image otsuT contoursRaw mw mh true).map Prod.snd = []) ∧
    List.Sorted leX
      ((split_to_symbols image otsuT contoursRaw mw mh true).map Prod.snd) := by
  have key : (split_to_symbols image otsuT contoursRaw mw mh true).map Prod.snd =
      sort_boxes_left_to_right
        (if (split_by_projection (preprocess_image image otsuT) 1 mw mh).length <
            (merge_close_boxes (find_contours contoursRaw mw mh) 1).length
         then merge_close_boxes (find_contours contoursRaw mw mh) 1
         else if 0 <
            (split_by_projection (preprocess_image image otsuT) 1 mw mh).length
         then split_by_projection (preprocess_image image otsuT) 1 mw mh
         else merge_close_boxes (find_contours contoursRaw mw mh) 1) := by
    unfold split_to_symbols
    dsimp only
    rw [if_pos rfl]
    exact extract_symbols_map_snd _ _
  refine ⟨?_, ?_, ?_, ?_⟩
  · intro h
    rw [key, if_pos h]
  · intro h1 h2
    rw [key, if_neg (by omega), if_pos (List.length_pos.mpr h2)]
  · intro hp hcnt
    rw [key, hp, hcnt]
    rfl
  · rw [key]
    exact sortX_sorted _

/-- C1 witness: on img1 a 3 versus 3 tie yields the projection boxes, and a
4 versus 3 contour surplus yields the contour boxes, sorted by x. -/
theorem C1_selector_policy_witness :
    (split_to_symbols img1 128 contours3 1 2 true).map Prod.snd =
      [⟨1, 1, 1, 3⟩, ⟨4, 1, 1, 3⟩, ⟨7, 1, 1, 3⟩] ∧
    (split_to_symbols img1 128 contours4 1 2 true).map Prod.snd =
      [⟨1, 1, 1, 3⟩, ⟨4, 1, 1, 3⟩, ⟨7, 1, 1, 3⟩, ⟨20, 1, 1, 3⟩] := by
  constructor
  · exact ((C1_selector_policy img1 128 contours3 1 2).2.1 (by decide)
      (by decide)).trans (by decide)
  · exact ((C1_selector_policy img1 128 contours4 1 2).1 (by decide)).trans
      (by decide)

end PokerVision
